import Mathlib

/-!
Verification of the simple expression parser (tokeniser, recursive-descent
parser, AST evaluation) against its natural-language specification.

The Rust source is embedded shallowly:
* `Tokeniser`, `Token`, `nextToken` mirror `src/tokeniser.rs`; the source is a
  `List Char` and the cursor an index, matching `source.chars().nth(char_pos)`.
  `char::is_whitespace` is modelled in full (`rustIsWhitespace` lists the
  complete Unicode White_Space set); `char::is_numeric` is modelled by
  `rustIsNumeric`, a sound fragment of the Unicode N category (ASCII digits
  plus several well-known numeric blocks): every character it accepts is
  `is_numeric` in Rust, while N-category characters outside the listed
  blocks are treated as non-numeric.
* The parser's mutually recursive methods `entity` / `mult_expr` / `expr` and
  their two `while` loops are defunctionalised into one fueled, structurally
  recursive function `parseGo`; the fuel strictly exceeds the number of
  recursive calls any input of the given length can cause, so the
  fuel-exhaustion branch is unreachable for the fuel `parse` supplies.
* `f32` values are represented exactly: every finite IEEE-754 binary32 value
  is an integer multiple of 2^(-149), so a finite value is carried as that
  integer numerator (`F32.finite m` means m * 2^(-149)), and the four
  arithmetic operations round their exact rational result to the nearest
  representable value with ties to even, overflowing to an infinity, exactly
  as IEEE-754 (and hence Rust's `f32`) prescribes.  The sign of a zero is not
  tracked (`0.0` and `-0.0` collapse); no claim below distinguishes them.
* Error messages are reproduced verbatim, including the source's
  "postion" typo and Rust's one-line `derive(Debug)` formatting.
-/

set_option maxRecDepth 40000

set_option exponentiation.threshold 700

/-- `TokenKind` from `tokeniser.rs`. -/
inductive TokenKind where
  | IntLiteral
  | FloatLiteral
  | Add
  | Sub
  | Mult
  | Div
  | LParen
  | RParen
  | EOF
  | Empty
deriving DecidableEq, Repr

/-- The `{:?}` (derive Debug) rendering of a `TokenKind`. -/
def kindDebug : TokenKind → String
  | .IntLiteral => "IntLiteral"
  | .FloatLiteral => "FloatLiteral"
  | .Add => "Add"
  | .Sub => "Sub"
  | .Mult => "Mult"
  | .Div => "Div"
  | .LParen => "LParen"
  | .RParen => "RParen"
  | .EOF => "EOF"
  | .Empty => "Empty"

/-- `Token` from `tokeniser.rs`: kind, optional literal text, start offset. -/
structure Token where
  kind : TokenKind
  value : Option String
  pos : ℕ
deriving DecidableEq, Repr

/-- `Token::empty()`. -/
def Token.empty : Token :=
  { kind := .Empty, value := none, pos := 0 }

/-- The `{:?}` (derive Debug) rendering of an `Option<String>` value. -/
def optValueDebug : Option String → String
  | none => "None"
  | some s => "Some(\x22" ++ s ++ "\x22)"

/-- The `{:?}` (derive Debug) rendering of a `Token`. -/
def tokenDebug (t : Token) : String :=
  "Token \x7b kind: " ++ kindDebug t.kind ++ ", value: " ++ optValueDebug t.value
    ++ ", pos: " ++ toString t.pos ++ " \x7d"

/-- `Tokeniser` state: the source text and the cursor `char_pos`. -/
structure Tokeniser where
  source : List Char
  charPos : ℕ
deriving DecidableEq, Repr

/-- `Tokeniser::current_char` generalised over an explicit cursor:
`source.chars().nth(pos)` with the `None ⇒ '\0'` sentinel. -/
def charAt (src : List Char) (pos : ℕ) : Char :=
  src.getD pos '\x00'

/-- Rust `char::is_whitespace`: the full Unicode White_Space set
(25 code points), enumerated exactly. -/
def rustIsWhitespace (c : Char) : Bool :=
  c = ' ' || c = '\t' || c = '\n' || c = '\x0b' || c = '\x0c'
  || c = '\r' || c = '\u0085' || c = '\u00a0' || c = '\u1680' || c = '\u2000'
  || c = '\u2001' || c = '\u2002' || c = '\u2003' || c = '\u2004' || c = '\u2005'
  || c = '\u2006' || c = '\u2007' || c = '\u2008' || c = '\u2009' || c = '\u200a'
  || c = '\u2028' || c = '\u2029' || c = '\u202f' || c = '\u205f' || c = '\u3000'

/-- Rust `char::is_numeric` (Unicode categories Nd/Nl/No) on a sound
fragment: ASCII digits, Arabic-Indic and Extended Arabic-Indic digits,
Devanagari and Thai digits, fullwidth digits, the superscript digits and
vulgar fractions of Latin-1, and the Roman numerals.  Every character
accepted here is `is_numeric` in Rust; numeric characters outside these
blocks are not modelled (they are treated as non-numeric). -/
def rustIsNumeric (c : Char) : Bool :=
  c.isDigit
  || ('\u0660' ≤ c && c ≤ '\u0669')
  || ('\u06f0' ≤ c && c ≤ '\u06f9')
  || ('\u0966' ≤ c && c ≤ '\u096f')
  || ('\u0e50' ≤ c && c ≤ '\u0e59')
  || ('\uff10' ≤ c && c ≤ '\uff19')
  || c = '\u00b2' || c = '\u00b3' || c = '\u00b9'
  || ('\u00bc' ≤ c && c ≤ '\u00be')
  || ('\u2160' ≤ c && c ≤ '\u2182')

/-- The whitespace-skipping `while` loop at the top of `next_token`,
expressed with explicit fuel (the loop advances the cursor at most
`src.length - pos` times, so any fuel above that bound is equivalent). -/
def skipWs (src : List Char) : ℕ → ℕ → ℕ
  | 0, pos => pos
  | fuel + 1, pos =>
    if rustIsWhitespace (charAt src pos) then skipWs src fuel (pos + 1) else pos

/-- `Tokeniser::number_sequence`: the greedy digit-run scan starting at `pos`,
returning the scanned digits and the cursor after them (fueled `while`). -/
def numberSeq (src : List Char) : ℕ → ℕ → List Char × ℕ
  | 0, pos => ([], pos)
  | fuel + 1, pos =>
    let c := charAt src pos
    if rustIsNumeric c then
      let r := numberSeq src fuel (pos + 1)
      (c :: r.1, r.2)
    else ([], pos)

/-- The single-character token table inside `next_token`. -/
def singleKind : Char → Option TokenKind
  | '+' => some .Add
  | '-' => some .Sub
  | '/' => some .Div
  | '*' => some .Mult
  | '(' => some .LParen
  | ')' => some .RParen
  | _ => none

/-- `Tokeniser::next_token`: skip whitespace, then dispatch on the current
character (end sentinel / digit run / single-char token / lexical error).
Returns the token together with the tokeniser state after it. -/
def nextToken (t : Tokeniser) : Except String (Token × Tokeniser) :=
  let pos := skipWs t.source (t.source.length + 1) t.charPos
  let c := charAt t.source pos
  if c = '\x00' then
    .ok ({ kind := .EOF, value := none, pos := pos }, { t with charPos := pos })
  else if rustIsNumeric c then
    let ns := numberSeq t.source (t.source.length + 1) pos
    if charAt t.source ns.2 = '.' then
      let ds := numberSeq t.source (t.source.length + 1) (ns.2 + 1)
      if ds.1.length = 0 then
        .error ("Unfinished FloatLiteral \x27" ++ String.mk ns.1 ++ ".\x27 at position "
          ++ toString ds.2)
      else
        .ok ({ kind := .FloatLiteral,
               value := some (String.mk ns.1 ++ "." ++ String.mk ds.1),
               pos := pos },
             { t with charPos := ds.2 })
    else
      .ok ({ kind := .IntLiteral, value := some (String.mk ns.1), pos := pos },
           { t with charPos := ns.2 })
  else
    match singleKind c with
    | some k =>
      .ok ({ kind := k, value := none, pos := pos }, { t with charPos := pos + 1 })
    | none =>
      .error ("Unrecognised char \x27" ++ c.toString ++ "\x27 at postion " ++ toString pos)

/-- `Op` from `ast.rs`. -/
inductive Op where
  | Add
  | Sub
  | Mult
  | Div
deriving DecidableEq, Repr

/-- The AST node family of `ast.rs` (`BinOp`, `UnaryOp`, `IntLiteral`,
`FloatLiteral`) as a closed sum; children are owned subtrees. -/
inductive Node where
  | binOp (left : Node) (right : Node) (op : Op)
  | unaryOp (right : Node) (op : Op)
  | intLit (value : String)
  | floatLit (value : String)
deriving DecidableEq, Repr

/-- `Parser` state: its tokeniser and the single lookahead token. -/
structure ParserSt where
  tokeniser : Tokeniser
  currentToken : Token
deriving DecidableEq, Repr

/-- `Parser::eat`: check the lookahead kind, then advance it by one token. -/
def eat (st : ParserSt) (expected : TokenKind) : Except String ParserSt :=
  if st.currentToken.kind ≠ expected then
    .error ("Expected kind " ++ kindDebug expected ++ ", got kind "
      ++ kindDebug st.currentToken.kind)
  else
    match nextToken st.tokeniser with
    | .error e => .error e
    | .ok (tok, t') => .ok { tokeniser := t', currentToken := tok }

/-- Rule tags for the parser's mutually recursive productions: the three grammar
rules of `parser.rs` plus its two `while` loops (each carrying the node
accumulated so far).  Used to defunctionalise the mutual recursion into the
single fueled function `parseGo`. -/
inductive Rule where
  | entity
  | multExpr
  | multLoop (acc : Node)
  | expr
  | exprLoop (acc : Node)
deriving DecidableEq, Repr

/-- The bodies of `Parser::entity`, `Parser::mult_expr`, `Parser::expr` and
their two operator loops, as one structurally recursive function on fuel.
Each recursive call of the Rust source is one fueled call here; the
fuel-exhaustion error is an embedding artifact that `parse`'s fuel choice
makes unreachable. -/
def parseGo : ℕ → Rule → ParserSt → Except String (Node × ParserSt)
  | 0, _, _ => .error "internal: parser fuel exhausted"
  | fuel + 1, sym, st =>
    match sym with
    | .entity =>
      match st.currentToken.kind with
      | .IntLiteral =>
        match st.currentToken.value with
        | some v => do
          let st1 ← eat st .IntLiteral
          .ok (.intLit v, st1)
        | none =>
          .error "property `value` for a token of kind `TokenKind::IntLiteral` should not be none"
      | .FloatLiteral =>
        match st.currentToken.value with
        | some v => do
          let st1 ← eat st .FloatLiteral
          .ok (.floatLit v, st1)
        | none =>
          .error "property `value` for a token of kind `TokenKind::FloatLiteral` should not be none"
      | .Sub => do
        let st1 ← eat st .Sub
        let r ← parseGo fuel .entity st1
        .ok (.unaryOp r.1 .Sub, r.2)
      | .LParen => do
        let st1 ← eat st .LParen
        let r ← parseGo fuel .expr st1
        let st3 ← eat r.2 .RParen
        .ok (r.1, st3)
      | _ =>
        .error ("Unexpected token: " ++ tokenDebug st.currentToken ++ " at pos "
          ++ toString st.tokeniser.charPos)
    | .multExpr => do
      let r ← parseGo fuel .entity st
      parseGo fuel (.multLoop r.1) r.2
    | .multLoop acc =>
      if st.currentToken.kind = .Mult then do
        let st1 ← eat st .Mult
        let r ← parseGo fuel .entity st1
        parseGo fuel (.multLoop (.binOp acc r.1 .Mult)) r.2
      else if st.currentToken.kind = .Div then do
        let st1 ← eat st .Div
        let r ← parseGo fuel .entity st1
        parseGo fuel (.multLoop (.binOp acc r.1 .Div)) r.2
      else
        .ok (acc, st)
    | .expr => do
      let r ← parseGo fuel .multExpr st
      parseGo fuel (.exprLoop r.1) r.2
    | .exprLoop acc =>
      if st.currentToken.kind = .Add then do
        let st1 ← eat st .Add
        let r ← parseGo fuel .multExpr st1
        parseGo fuel (.exprLoop (.binOp acc r.1 .Add)) r.2
      else if st.currentToken.kind = .Sub then do
        let st1 ← eat st .Sub
        let r ← parseGo fuel .multExpr st1
        parseGo fuel (.exprLoop (.binOp acc r.1 .Sub)) r.2
      else
        .ok (acc, st)

/-- `Parser::entity`. -/
def entity (fuel : ℕ) (st : ParserSt) : Except String (Node × ParserSt) :=
  parseGo fuel .entity st

/-- `Parser::mult_expr`. -/
def mult_expr (fuel : ℕ) (st : ParserSt) : Except String (Node × ParserSt) :=
  parseGo fuel .multExpr st

/-- `Parser::expr`. -/
def expr (fuel : ℕ) (st : ParserSt) : Except String (Node × ParserSt) :=
  parseGo fuel .expr st

/-- Fuel that strictly dominates the number of recursive parser calls an
input of the given length can trigger. -/
def parseFuel (src : List Char) : ℕ :=
  4 * src.length + 8

/-- `Parser::parse` on a fresh parser for `s` (as `main.rs` uses it):
prime the lookahead with the first token, then run `expr`; the remaining
lookahead is dropped, successful or not consumed to the end. -/
def parse (s : String) : Except String Node :=
  let t0 : Tokeniser := { source := s.data, charPos := 0 }
  match nextToken t0 with
  | .error e => .error e
  | .ok (tok, t1) =>
    match expr (parseFuel s.data) { tokeniser := t1, currentToken := tok } with
    | .error e => .error e
    | .ok (n, _) => .ok n

/-- The scaled numerator of the largest finite binary32 value:
`maxM * 2^(-149) = (2^24 - 1) * 2^104` is the IEEE-754 single-precision
maximum. -/
def maxM : ℕ :=
  (2 ^ 24 - 1) * 2 ^ 253

/-- Round `p / q` (with `q > 0`) to the nearest integer, ties to even. -/
def rneNat (p q : ℕ) : ℕ :=
  let d := p / q
  let r := p % q
  if 2 * r < q then d
  else if q < 2 * r then d + 1
  else if d % 2 = 0 then d else d + 1

/-- Largest `t' ∈ [t, t + fuel]` with `B * 2^t' ≤ N`, scanning upward
(returns `t` when even that fails).  Used to locate the binary exponent of a
positive rational `N / (B * 2^126)`. -/
def expSearch (B N : ℕ) : ℕ → ℕ → ℕ
  | 0, t => t
  | fuel + 1, t => if B * 2 ^ (t + 1) ≤ N then expSearch B N fuel (t + 1) else t

/-- Fuel for `expSearch`: any value it could be capped at corresponds to a
rational ≥ 2^475, far beyond binary32 overflow, so the cap never changes the
rounding result. -/
def expFuel : ℕ :=
  600

/-- Round the positive rational `n / b` (`n, b > 0`) to the binary32 grid:
`some m` is the finite value `m * 2^(-149)`, `none` is overflow to infinity.
`t` is the clamped exponent offset (`t = 0` on the subnormal grid, otherwise
`t = e + 126` where `2^e ≤ n/b < 2^(e+1)`), so the grid spacing is
`2^(t-149)` and round-to-nearest-even happens at that spacing, exactly as
IEEE-754 binary32 prescribes. -/
def roundPosPQ (n b : ℕ) : Option ℕ :=
  let t := expSearch b (n * 2 ^ 126) expFuel 0
  let m0 := rneNat (n * 2 ^ 149) (b * 2 ^ t)
  let m := m0 * 2 ^ t
  if maxM < m then none else some m

/-- An IEEE-754 binary32 (`f32`) value, represented exactly: `finite m` is
the real number `m * 2^(-149)` (every finite `f32` has this form), plus the
two infinities and NaN.  The sign of zero is not tracked. -/
inductive F32 where
  | finite (m : ℤ)
  | inf
  | negInf
  | nan
deriving DecidableEq, Repr

/-- Round the rational `a / b` (`b > 0`) to an `f32` value. -/
def roundPQ (a : ℤ) (b : ℕ) : F32 :=
  if a = 0 then .finite 0
  else if 0 < a then
    match roundPosPQ a.natAbs b with
    | some m => .finite m
    | none => .inf
  else
    match roundPosPQ a.natAbs b with
    | some m => .finite (-(m : ℤ))
    | none => .negInf

/-- `f32` addition (IEEE round-to-nearest-even on the exact sum). -/
def F32.add : F32 → F32 → F32
  | .nan, _ => .nan
  | _, .nan => .nan
  | .inf, .negInf => .nan
  | .negInf, .inf => .nan
  | .inf, _ => .inf
  | _, .inf => .inf
  | .negInf, _ => .negInf
  | _, .negInf => .negInf
  | .finite m1, .finite m2 => roundPQ (m1 + m2) (2 ^ 149)

/-- `f32` subtraction. -/
def F32.sub : F32 → F32 → F32
  | .nan, _ => .nan
  | _, .nan => .nan
  | .inf, .inf => .nan
  | .negInf, .negInf => .nan
  | .inf, _ => .inf
  | _, .inf => .negInf
  | .negInf, _ => .negInf
  | _, .negInf => .inf
  | .finite m1, .finite m2 => roundPQ (m1 - m2) (2 ^ 149)

/-- `f32` multiplication (`(m1 2^-149) * (m2 2^-149) = m1 m2 / 2^298`). -/
def F32.mul : F32 → F32 → F32
  | .nan, _ => .nan
  | _, .nan => .nan
  | .inf, .inf => .inf
  | .inf, .negInf => .negInf
  | .negInf, .inf => .negInf
  | .negInf, .negInf => .inf
  | .inf, .finite m => if m = 0 then .nan else if 0 < m then .inf else .negInf
  | .finite m, .inf => if m = 0 then .nan else if 0 < m then .inf else .negInf
  | .negInf, .finite m => if m = 0 then .nan else if 0 < m then .negInf else .inf
  | .finite m, .negInf => if m = 0 then .nan else if 0 < m then .negInf else .inf
  | .finite m1, .finite m2 => roundPQ (m1 * m2) (2 ^ 298)

/-- `f32` division (`(m1 2^-149) / (m2 2^-149) = m1 / m2`); a zero divisor
follows IEEE: `0/0 = NaN`, otherwise a signed infinity. -/
def F32.div : F32 → F32 → F32
  | .nan, _ => .nan
  | _, .nan => .nan
  | .inf, .inf => .nan
  | .inf, .negInf => .nan
  | .negInf, .inf => .nan
  | .negInf, .negInf => .nan
  | .inf, .finite m => if 0 ≤ m then .inf else .negInf
  | .negInf, .finite m => if 0 ≤ m then .negInf else .inf
  | .finite _, .inf => .finite 0
  | .finite _, .negInf => .finite 0
  | .finite m1, .finite m2 =>
    if m2 = 0 then
      if m1 = 0 then .nan else if 0 < m1 then .inf else .negInf
    else roundPQ (if m2 < 0 then -m1 else m1) m2.natAbs

/-- `f32` negation (exact). -/
def F32.neg : F32 → F32
  | .finite m => .finite (-m)
  | .inf => .negInf
  | .negInf => .inf
  | .nan => .nan

/-- The rational value of a finite `f32` (used only in statements). -/
def F32.val : F32 → Option ℚ
  | .finite m => some ((m : ℚ) / 2 ^ 149)
  | _ => none

/-- Numeric value of a digit run (most significant first). -/
def digitsVal (l : List Char) : ℕ :=
  l.foldl (fun acc c => 10 * acc + (c.toNat - 48)) 0

/-- Decimal shape of a literal string: `some (i, f, k)` when it is a digit
run of value `i` optionally followed by `.` and a non-empty digit run of
value `f` with `k` digits; `none` otherwise. -/
def decShape (l : List Char) : Option (ℕ × ℕ × ℕ) :=
  let ip := l.takeWhile Char.isDigit
  let rest := l.dropWhile Char.isDigit
  if ip.length = 0 then none
  else
    match rest with
    | [] => some (digitsVal ip, 0, 0)
    | c :: fr =>
      if c = '.' ∧ fr.length ≠ 0 ∧ fr.all Char.isDigit then
        some (digitsVal ip, digitsVal fr, fr.length)
      else none

/-- Rust's `str::parse::<f32>` on the unsigned decimal forms the tokeniser
emits (`digits` or `digits.digits`): the correctly rounded binary32 value of
`i + f / 10^k`, i.e. of `(i * 10^k + f) / 10^k`; `none` models the `Err`
that `unwrap` would turn into a panic. -/
def parseF32 (s : String) : Option F32 :=
  match decShape s.data with
  | none => none
  | some (i, f, k) => some (roundPQ ((i : ℤ) * 10 ^ k + f) (10 ^ k))

/-- `Node::evaluate` from `ast.rs` over the whole node family; `none` models
a panic from `unwrap` on a literal that fails numeric parsing. -/
def Node.evaluate : Node → Option F32
  | .binOp l r op =>
    match l.evaluate, r.evaluate with
    | some a, some b =>
      some (match op with
        | .Add => a.add b
        | .Sub => a.sub b
        | .Div => a.div b
        | .Mult => a.mul b)
    | _, _ => none
  | .unaryOp r op =>
    match r.evaluate with
    | some a =>
      some (match op with
        | .Add | .Mult | .Div => a
        | .Sub => a.neg)
    | none => none
  | .intLit v => parseF32 v
  | .floatLit v => parseF32 v

/-- End-to-end observable value of one input line, as the shell in `main.rs`
sees it: parse, evaluate, and read off the rational value of the resulting
`f32` (`none` when parsing fails, evaluation panics, or the result is not
finite). -/
def evalVal (s : String) : Option ℚ :=
  match parse s with
  | .error _ => none
  | .ok n =>
    match n.evaluate with
    | some v => v.val
    | none => none

/-- The token kind that `eat` consumes for each binary operator. -/
def opToken : Op → TokenKind
  | .Add => .Add
  | .Sub => .Sub
  | .Mult => .Mult
  | .Div => .Div

/-- `LoopFold u p n st n' st'` says the parser state `(n, st)` is turned into
`(n', st')` by zero or more iterations of an operator loop: each iteration
consumes an operator token satisfying `p`, runs the lower-tier rule `u` for
the right operand, and wraps the accumulator as the LEFT child of a new
binary node.  This is exactly the shape of the two `while` loops in
`Parser::expr` / `Parser::mult_expr`. -/
inductive LoopFold (u : Rule) (p : Op → Prop) :
    Node → ParserSt → Node → ParserSt → Prop where
  | refl (n : Node) (st : ParserSt) : LoopFold u p n st n st
  | step {n : Node} {st : ParserSt} {op : Op} {st1 : ParserSt} {f : ℕ} {r : Node}
      {st2 : ParserSt} {n' : Node} {st' : ParserSt}
      (hp : p op) (he : eat st (opToken op) = .ok st1)
      (hu : parseGo f u st1 = .ok (r, st2))
      (hrest : LoopFold u p (.binOp n r op) st2 n' st') :
      LoopFold u p n st n' st'

/-- Left fold of operator/operand pairs onto an initial node: each step puts
the accumulated tree in the LEFT child. -/
def leftFold (n : Node) (ps : List (Op × Node)) : Node :=
  ps.foldl (fun acc q => .binOp acc q.2 q.1) n

/-- A node all of whose literal leaves store text that parses successfully
as a number (the negation of the panic condition in
`IntLiteral::evaluate` / `FloatLiteral::evaluate`). -/
def goodNode : Node → Prop
  | .binOp l r _ => goodNode l ∧ goodNode r
  | .unaryOp r _ => goodNode r
  | .intLit v => (parseF32 v).isSome = true
  | .floatLit v => (parseF32 v).isSome = true

/-- A token that, if it is a literal, carries text that parses successfully
as a number. -/
def goodTok (tok : Token) : Prop :=
  (tok.kind = .IntLiteral ∨ tok.kind = .FloatLiteral) →
    ∃ v, tok.value = some v ∧ (parseF32 v).isSome = true

/-- A source in which every character the tokeniser scans as numeric is an
ASCII decimal digit — i.e. the input contains no non-ASCII numeric
character.  Under this restriction the tokeniser's literal values always
parse as numbers. -/
def SafeSrc (src : List Char) : Prop :=
  ∀ c ∈ src, rustIsNumeric c = true → c.isDigit = true

/-- Parser-state invariant: the lookahead token is literal-safe and the
remaining source contains no non-ASCII numeric character. -/
def goodSt (st : ParserSt) : Prop :=
  goodTok st.currentToken ∧ SafeSrc st.tokeniser.source

/-- Loop accumulators fed to `parseGo` have well-formed literal leaves. -/
def goodRule : Rule → Prop
  | .multLoop acc => goodNode acc
  | .exprLoop acc => goodNode acc
  | _ => True

lemma charAt_of_len_le (src : List Char) (pos : ℕ) (h : src.length ≤ pos) :
    charAt src pos = '\x00' :=
  List.getD_eq_default src _ h

lemma lt_len_of_charAt_ne (src : List Char) (pos : ℕ) (h : charAt src pos ≠ '\x00') :
    pos < src.length := by
  by_contra h'
  exact h (charAt_of_len_le src pos (Nat.le_of_not_lt h'))

lemma skipWs_ge (src : List Char) : ∀ fuel pos, pos ≤ skipWs src fuel pos := by
  intro fuel
  induction fuel with
  | zero => intro pos; simp [skipWs]
  | succ f ih =>
    intro pos
    simp only [skipWs]
    split
    · exact le_trans (Nat.le_succ pos) (ih (pos + 1))
    · exact le_refl pos

lemma skipWs_le (src : List Char) :
    ∀ fuel pos, pos ≤ src.length → skipWs src fuel pos ≤ src.length := by
  intro fuel
  induction fuel with
  | zero => intro pos h; simpa [skipWs] using h
  | succ f ih =>
    intro pos h
    simp only [skipWs]
    split
    · rename_i hws
      have hne : charAt src pos ≠ '\x00' := by
        intro h0
        rw [h0] at hws
        exact absurd hws (by decide)
      have := lt_len_of_charAt_ne src pos hne
      exact ih (pos + 1) (by omega)
    · exact h

lemma numberSeq_ge (src : List Char) : ∀ fuel pos, pos ≤ (numberSeq src fuel pos).2 := by
  intro fuel
  induction fuel with
  | zero => intro pos; simp [numberSeq]
  | succ f ih =>
    intro pos
    simp only [numberSeq]
    split
    · exact le_trans (Nat.le_succ pos) (ih (pos + 1))
    · exact le_refl pos

lemma numberSeq_le (src : List Char) :
    ∀ fuel pos, pos ≤ src.length → (numberSeq src fuel pos).2 ≤ src.length := by
  intro fuel
  induction fuel with
  | zero => intro pos h; simpa [numberSeq] using h
  | succ f ih =>
    intro pos h
    simp only [numberSeq]
    split
    · rename_i hdig
      have hne : charAt src pos ≠ '\x00' := by
        intro h0
        rw [h0] at hdig
        exact absurd hdig (by decide)
      have := lt_len_of_charAt_ne src pos hne
      exact ih (pos + 1) (by omega)
    · exact h

/-- The cursor moves of one successful `next_token` call: the source is
untouched, the cursor never moves backwards, and it never passes the end of
the source. -/
lemma nextToken_cursor (t : Tokeniser) (tok : Token) (t' : Tokeniser)
    (h : nextToken t = .ok (tok, t')) :
    t'.source = t.source ∧ t.charPos ≤ t'.charPos ∧
      (t.charPos ≤ t.source.length → t'.charPos ≤ t.source.length) := by
  have hge := skipWs_ge t.source (t.source.length + 1) t.charPos
  have hle := skipWs_le t.source (t.source.length + 1) t.charPos
  simp only [nextToken] at h
  split at h
  · -- EOF branch
    rcases h with ⟨⟩
    exact ⟨rfl, hge, fun hp => hle hp⟩
  · split at h
    · -- digit branch
      rename_i hc0 _
      have hlt := lt_len_of_charAt_ne t.source _ hc0
      have hns_ge := numberSeq_ge t.source (t.source.length + 1)
        (skipWs t.source (t.source.length + 1) t.charPos)
      have hns_le := numberSeq_le t.source (t.source.length + 1)
        (skipWs t.source (t.source.length + 1) t.charPos) (by omega)
      split at h
      · -- decimal point follows the first digit run
        rename_i hdot
        have hlt2 := lt_len_of_charAt_ne t.source _ (by rw [hdot]; decide)
        have hds_ge := numberSeq_ge t.source (t.source.length + 1)
          ((numberSeq t.source (t.source.length + 1)
            (skipWs t.source (t.source.length + 1) t.charPos)).2 + 1)
        have hds_le := numberSeq_le t.source (t.source.length + 1)
          ((numberSeq t.source (t.source.length + 1)
            (skipWs t.source (t.source.length + 1) t.charPos)).2 + 1) (by omega)
        split at h
        · exact absurd h (by simp)
        · rcases h with ⟨⟩
          exact ⟨rfl, by dsimp only; omega, fun hp => by dsimp only; omega⟩
      · -- plain integer literal
        rcases h with ⟨⟩
        exact ⟨rfl, by dsimp only; omega, fun hp => by dsimp only; omega⟩
    · -- single-character tokens and the lexical-error branch
      rename_i hc0 _
      have hlt := lt_len_of_charAt_ne t.source _ hc0
      split at h
      · rcases h with ⟨⟩
        exact ⟨rfl, by dsimp only; omega, fun hp => by dsimp only; omega⟩
      · exact absurd h (by simp)

/-- C8: across every sequence of `next_token` calls the cursor `char_pos`
only increases, never exceeds the source length (starting within bounds),
and every read at or past the end of the source yields the sentinel end
character `'\0'` instead of failing. -/
theorem c8_cursor_invariant :
    (∀ t : Tokeniser, t.source.length ≤ t.charPos → charAt t.source t.charPos = '\x00') ∧
    (∀ (t : Tokeniser) (tok : Token) (t' : Tokeniser), nextToken t = .ok (tok, t') →
      t'.source = t.source ∧ t.charPos ≤ t'.charPos ∧
        (t.charPos ≤ t.source.length → t'.charPos ≤ t.source.length)) :=
  ⟨fun t h => charAt_of_len_le t.source t.charPos h,
   fun t tok t' h => nextToken_cursor t tok t' h⟩

/-- Witness for C8 at the concrete tokeniser state for `"12"`. -/
theorem c8_cursor_invariant_witness :
    charAt ("12".data) 2 = '\x00' ∧
    ({ source := "12".data, charPos := 0 } : Tokeniser).charPos ≤
      ({ source := "12".data, charPos := 2 } : Tokeniser).charPos :=
  ⟨c8_cursor_invariant.1 { source := "12".data, charPos := 2 } (by decide),
   (c8_cursor_invariant.2 { source := "12".data, charPos := 0 }
      { kind := .IntLiteral, value := some "12", pos := 0 }
      { source := "12".data, charPos := 2 } (by rfl)).2.1⟩

lemma LoopFold.toLeftFold {u : Rule} {p : Op → Prop} :
    ∀ {n : Node} {st : ParserSt} {n' : Node} {st' : ParserSt},
      LoopFold u p n st n' st' →
        ∃ ps : List (Op × Node), n' = leftFold n ps ∧ ∀ q ∈ ps, p q.1 := by
  intro n st n' st' h
  induction h with
  | refl n st => exact ⟨[], rfl, by simp⟩
  | step hp he hu hrest ih =>
    rename_i op _ _ r _ _ _
    rcases ih with ⟨ps, hps, hall⟩
    refine ⟨(op, r) :: ps, by simpa [leftFold] using hps, ?_⟩
    intro q hq
    rcases List.mem_cons.mp hq with hq | hq
    · rw [hq]; exact hp
    · exact hall q hq

lemma exbind_ok {α β : Type} (a : α) (k : α → Except String β) :
    (Except.ok a >>= k) = k a :=
  rfl

lemma exbind_err {α β : Type} (e : String) (k : α → Except String β) :
    ((Except.error e : Except String α) >>= k) = .error e :=
  rfl

lemma exprLoop_fold :
    ∀ (fuel : ℕ) (acc : Node) (st : ParserSt) (n : Node) (st' : ParserSt),
      parseGo fuel (.exprLoop acc) st = .ok (n, st') →
        LoopFold .multExpr (fun op => op = .Add ∨ op = .Sub) acc st n st' := by
  intro fuel
  induction fuel with
  | zero =>
    intro acc st n st' h
    exact absurd h (by simp [parseGo])
  | succ f ih =>
    intro acc st n st' h
    simp only [parseGo] at h
    split at h
    · rcases heat : eat st .Add with e | st1 <;> rw [heat] at h
      · rw [exbind_err] at h
        exact absurd h (by simp)
      · rw [exbind_ok] at h
        rcases hm : parseGo f .multExpr st1 with e | r <;> rw [hm] at h
        · rw [exbind_err] at h
          exact absurd h (by simp)
        · rw [exbind_ok] at h
          exact LoopFold.step (Or.inl rfl) heat hm (ih _ _ _ _ h)
    · split at h
      · rcases heat : eat st .Sub with e | st1 <;> rw [heat] at h
        · rw [exbind_err] at h
          exact absurd h (by simp)
        · rw [exbind_ok] at h
          rcases hm : parseGo f .multExpr st1 with e | r <;> rw [hm] at h
          · rw [exbind_err] at h
            exact absurd h (by simp)
          · rw [exbind_ok] at h
            exact LoopFold.step (Or.inr rfl) heat hm (ih _ _ _ _ h)
      · rcases h with ⟨⟩
        exact LoopFold.refl acc st

lemma multLoop_fold :
    ∀ (fuel : ℕ) (acc : Node) (st : ParserSt) (n : Node) (st' : ParserSt),
      parseGo fuel (.multLoop acc) st = .ok (n, st') →
        LoopFold .entity (fun op => op = .Mult ∨ op = .Div) acc st n st' := by
  intro fuel
  induction fuel with
  | zero =>
    intro acc st n st' h
    exact absurd h (by simp [parseGo])
  | succ f ih =>
    intro acc st n st' h
    simp only [parseGo] at h
    split at h
    · rcases heat : eat st .Mult with e | st1 <;> rw [heat] at h
      · rw [exbind_err] at h
        exact absurd h (by simp)
      · rw [exbind_ok] at h
        rcases hm : parseGo f .entity st1 with e | r <;> rw [hm] at h
        · rw [exbind_err] at h
          exact absurd h (by simp)
        · rw [exbind_ok] at h
          exact LoopFold.step (Or.inl rfl) heat hm (ih _ _ _ _ h)
    · split at h
      · rcases heat : eat st .Div with e | st1 <;> rw [heat] at h
        · rw [exbind_err] at h
          exact absurd h (by simp)
        · rw [exbind_ok] at h
          rcases hm : parseGo f .entity st1 with e | r <;> rw [hm] at h
          · rw [exbind_err] at h
            exact absurd h (by simp)
          · rw [exbind_ok] at h
            exact LoopFold.step (Or.inr rfl) heat hm (ih _ _ _ _ h)
      · rcases h with ⟨⟩
        exact LoopFold.refl acc st

lemma val_intCast (k : ℤ) : (F32.finite (k * 2 ^ 149)).val = some (k : ℚ) := by
  simp only [F32.val]
  congr 1
  push_cast
  rw [show (713623846352979940529142984724747568191373312 : ℚ) = 2 ^ 149 by norm_num,
    mul_div_assoc, div_self (by positivity), mul_one]

lemma evalVal_of_run (s : String) (k : ℤ)
    (h : (parse s).map Node.evaluate = .ok (some (.finite (k * 2 ^ 149)))) :
    evalVal s = some (k : ℚ) := by
  rcases hp : parse s with e | n <;> rw [hp] at h <;> simp only [Except.map] at h
  · exact absurd h (by simp)
  · injection h with h2
    simp only [evalVal]
    rw [hp]
    dsimp only
    rw [h2]
    exact val_intCast k

/-- C1: multiplication and division bind tighter than addition and
subtraction: `"2 + 3 * 4"` evaluates to 14 and `"(2 + 3) * 4"` to 20, with
the `Mult` chain of the former a single right operand of the `Add` node;
and in general `expr` is one `mult_expr` result extended by a left fold of
`Add`/`Sub` steps whose right operands are `mult_expr` results, while
`mult_expr` is one `entity` result extended by a left fold of `Mult`/`Div`
steps — every `Mult`/`Div` chain is reduced before it becomes one operand
of the surrounding `Add`/`Sub` chain. -/
theorem c1_precedence :
    (evalVal "2 + 3 * 4" = some 14 ∧ evalVal "(2 + 3) * 4" = some 20 ∧
      parse "2 + 3 * 4" =
        .ok (.binOp (.intLit "2") (.binOp (.intLit "3") (.intLit "4") .Mult) .Add)) ∧
    (∀ (fuel : ℕ) (st : ParserSt) (n : Node) (st' : ParserSt),
      parseGo (fuel + 1) .expr st = .ok (n, st') →
        ∃ m st1, parseGo fuel .multExpr st = .ok (m, st1) ∧
          LoopFold .multExpr (fun op => op = .Add ∨ op = .Sub) m st1 n st') ∧
    (∀ (fuel : ℕ) (st : ParserSt) (n : Node) (st' : ParserSt),
      parseGo (fuel + 1) .multExpr st = .ok (n, st') →
        ∃ m st1, parseGo fuel .entity st = .ok (m, st1) ∧
          LoopFold .entity (fun op => op = .Mult ∨ op = .Div) m st1 n st') := by
  refine ⟨⟨?_, ?_, by rfl⟩, ?_, ?_⟩
  · simpa using evalVal_of_run "2 + 3 * 4" 14 (by rfl)
  · simpa using evalVal_of_run "(2 + 3) * 4" 20 (by rfl)
  · intro fuel st n st' h
    simp only [parseGo] at h
    rcases hm : parseGo fuel .multExpr st with e | ⟨m, st1⟩ <;> rw [hm] at h
    · rw [exbind_err] at h
      exact absurd h (by simp)
    · rw [exbind_ok] at h
      exact ⟨m, st1, rfl, exprLoop_fold _ _ _ _ _ h⟩
  · intro fuel st n st' h
    simp only [parseGo] at h
    rcases hm : parseGo fuel .entity st with e | ⟨m, st1⟩ <;> rw [hm] at h
    · rw [exbind_err] at h
      exact absurd h (by simp)
    · rw [exbind_ok] at h
      exact ⟨m, st1, rfl, multLoop_fold _ _ _ _ _ h⟩

/-- Witness for C1 at a concrete one-literal run of `expr`. -/
theorem c1_precedence_witness :
    ∃ m st1,
      parseGo 10 .multExpr
        { tokeniser := { source := "1".data, charPos := 1 },
          currentToken := { kind := .IntLiteral, value := some "1", pos := 0 } } =
          .ok (m, st1) ∧
      LoopFold .multExpr (fun op => op = .Add ∨ op = .Sub) m st1 (.intLit "1")
        { tokeniser := { source := "1".data, charPos := 1 },
          currentToken := { kind := .EOF, value := none, pos := 1 } } :=
  c1_precedence.2.1 10
    { tokeniser := { source := "1".data, charPos := 1 },
      currentToken := { kind := .IntLiteral, value := some "1", pos := 0 } }
    (.intLit "1")
    { tokeniser := { source := "1".data, charPos := 1 },
      currentToken := { kind := .EOF, value := none, pos := 1 } }
    (by rfl)

/-- C2: both operator loops build strictly left-associative trees — the
accumulated tree is always wrapped as the LEFT child of each new binary
node, so the result is a left fold over the parsed operand units; in
particular `"8 - 3 - 2"` parses as `(8 - 3) - 2` and evaluates to 3,
not 7. -/
theorem c2_left_assoc :
    (parse "8 - 3 - 2" =
        .ok (.binOp (.binOp (.intLit "8") (.intLit "3") .Sub) (.intLit "2") .Sub) ∧
      evalVal "8 - 3 - 2" = some 3 ∧ evalVal "8 - 3 - 2" ≠ some 7) ∧
    (∀ (fuel : ℕ) (acc : Node) (st : ParserSt) (n : Node) (st' : ParserSt),
      parseGo fuel (.exprLoop acc) st = .ok (n, st') →
        ∃ ps : List (Op × Node), n = leftFold acc ps ∧
          ∀ q ∈ ps, q.1 = Op.Add ∨ q.1 = Op.Sub) ∧
    (∀ (fuel : ℕ) (acc : Node) (st : ParserSt) (n : Node) (st' : ParserSt),
      parseGo fuel (.multLoop acc) st = .ok (n, st') →
        ∃ ps : List (Op × Node), n = leftFold acc ps ∧
          ∀ q ∈ ps, q.1 = Op.Mult ∨ q.1 = Op.Div) := by
  have h3 : evalVal "8 - 3 - 2" = some 3 := by
    simpa using evalVal_of_run "8 - 3 - 2" 3 (by rfl)
  refine ⟨⟨by rfl, h3, ?_⟩, ?_, ?_⟩
  · rw [h3]
    intro hc
    injection hc with hc
    norm_num at hc
  · intro fuel acc st n st' h
    exact (exprLoop_fold fuel acc st n st' h).toLeftFold
  · intro fuel acc st n st' h
    exact (multLoop_fold fuel acc st n st' h).toLeftFold

/-- Witness for C2 at a concrete zero-iteration loop run. -/
theorem c2_left_assoc_witness :
    ∃ ps : List (Op × Node), Node.intLit "1" = leftFold (.intLit "1") ps ∧
      ∀ q ∈ ps, q.1 = Op.Add ∨ q.1 = Op.Sub :=
  c2_left_assoc.2.1 5 (.intLit "1")
    { tokeniser := { source := "1".data, charPos := 1 },
      currentToken := { kind := .EOF, value := none, pos := 1 } }
    (.intLit "1")
    { tokeniser := { source := "1".data, charPos := 1 },
      currentToken := { kind := .EOF, value := none, pos := 1 } }
    (by rfl)

/-- C3: a leading `Sub` token makes `entity` consume it and recursively
parse exactly one more `entity` as the operand of a unary minus — so unary
minus binds to a single atomic entity (tighter than every binary operator)
and stacks under repeated signs: `"--3"` evaluates to 3 and `"-2 * 3"`
to -6 (the minus negates only the 2). -/
theorem c3_unary_minus :
    (parse "--3" = .ok (.unaryOp (.unaryOp (.intLit "3") .Sub) .Sub) ∧
      evalVal "--3" = some 3 ∧
      parse "-2 * 3" = .ok (.binOp (.unaryOp (.intLit "2") .Sub) (.intLit "3") .Mult) ∧
      evalVal "-2 * 3" = some (-6)) ∧
    (∀ (fuel : ℕ) (st : ParserSt) (n : Node) (st' : ParserSt),
      st.currentToken.kind = .Sub → parseGo (fuel + 1) .entity st = .ok (n, st') →
        ∃ st1 r st2, eat st .Sub = .ok st1 ∧ parseGo fuel .entity st1 = .ok (r, st2) ∧
          n = .unaryOp r .Sub ∧ st' = st2) := by
  refine ⟨⟨by rfl, by simpa using evalVal_of_run "--3" 3 (by rfl), by rfl,
    by simpa using evalVal_of_run "-2 * 3" (-6) (by rfl)⟩, ?_⟩
  intro fuel st n st' hk h
  simp only [parseGo] at h
  rw [hk] at h
  dsimp only at h
  rcases heat : eat st .Sub with e | st1 <;> rw [heat] at h
  · rw [exbind_err] at h
    exact absurd h (by simp)
  · rw [exbind_ok] at h
    rcases hr : parseGo fuel .entity st1 with e | ⟨r, st2⟩ <;> rw [hr] at h
    · rw [exbind_err] at h
      exact absurd h (by simp)
    · rw [exbind_ok] at h
      rcases h with ⟨⟩
      exact ⟨st1, r, st2, rfl, hr, rfl, rfl⟩

/-- Witness for C3 at the concrete run on `"-3"`. -/
theorem c3_unary_minus_witness :
    ∃ st1 r st2,
      eat { tokeniser := { source := "-3".data, charPos := 1 },
            currentToken := { kind := .Sub, value := none, pos := 0 } } .Sub = .ok st1 ∧
      parseGo 5 .entity st1 = .ok (r, st2) ∧
      Node.unaryOp (.intLit "3") .Sub = .unaryOp r .Sub ∧
      ({ tokeniser := { source := "-3".data, charPos := 2 },
         currentToken := { kind := .EOF, value := none, pos := 2 } } : ParserSt) = st2 :=
  c3_unary_minus.2 5
    { tokeniser := { source := "-3".data, charPos := 1 },
      currentToken := { kind := .Sub, value := none, pos := 0 } }
    (.unaryOp (.intLit "3") .Sub)
    { tokeniser := { source := "-3".data, charPos := 2 },
      currentToken := { kind := .EOF, value := none, pos := 2 } }
    (by rfl) (by rfl)

/-- C5 is false on the code: a unary plus is NOT accepted by the parser.
`entity` only treats `Sub` as a unary operator, so `"+3"` fails with an
unexpected-token error. -/
theorem c5_counterexample :
    parse "+3" =
      .error "Unexpected token: Token \x7b kind: Add, value: None, pos: 0 \x7d at pos 1" := by
  rfl

/-- C5 amended: the parser rejects a leading unary `+` with an
unexpected-token error; the no-op unary-plus semantics exists only in
`UnaryOp::evaluate`, where an `Add` operator passes the operand value
through unchanged (were such a node ever constructed). -/
theorem c5_amended :
    parse "+3" =
      .error "Unexpected token: Token \x7b kind: Add, value: None, pos: 0 \x7d at pos 1" ∧
    ∀ n : Node, (Node.unaryOp n .Add).evaluate = n.evaluate := by
  refine ⟨by rfl, ?_⟩
  intro n
  cases h : n.evaluate <;> simp [Node.evaluate, h]

/-- Witness for C5 (amended) at the literal node `3`. -/
theorem c5_amended_witness :
    (Node.unaryOp (.intLit "3") .Add).evaluate = (Node.intLit "3").evaluate :=
  c5_amended.2 (.intLit "3")

/-- C6 is false on the code: the syntax error produced by `eat` for
`"(1 + 2"` (expected `RParen`, got `EOF`) contains no position at all — its
message has not a single digit. -/
theorem c6_counterexample :
    parse "(1 + 2" = .error "Expected kind RParen, got kind EOF" ∧
    ("Expected kind RParen, got kind EOF".data.all fun c => !c.isDigit) = true :=
  ⟨by rfl, by decide⟩

/-- C6 amended: an `eat` mismatch reports the expected and the actual token
kind but never a position (its message is a function of the two kinds
alone); only the unexpected-token error at an `entity` position reports the
offending token (with its kind, value and start offset) and the cursor
position. -/
theorem c6_amended :
    (∀ (st : ParserSt) (k : TokenKind), st.currentToken.kind ≠ k →
      eat st k = .error ("Expected kind " ++ kindDebug k ++ ", got kind "
        ++ kindDebug st.currentToken.kind)) ∧
    parse "(1 + 2" = .error "Expected kind RParen, got kind EOF" ∧
    parse ")" = .error
      "Unexpected token: Token \x7b kind: RParen, value: None, pos: 0 \x7d at pos 1" := by
  refine ⟨?_, by rfl, by rfl⟩
  intro st k hne
  simp only [eat, if_pos hne]

/-- Witness for C6 (amended) at a concrete mismatching `eat` call. -/
theorem c6_amended_witness :
    eat { tokeniser := { source := [], charPos := 0 }, currentToken := Token.empty } .EOF =
      .error ("Expected kind " ++ kindDebug .EOF ++ ", got kind "
        ++ kindDebug (Token.empty).kind) :=
  c6_amended.1 { tokeniser := { source := [], charPos := 0 }, currentToken := Token.empty }
    .EOF (by decide)

/-- C10: `parse` never requires the whole input to be consumed — it returns
the tree of `expr` whatever the final lookahead token is (no EOF check), so
`"1 2"` parses successfully as the literal 1. -/
theorem c10_trailing_input :
    parse "1 2" = .ok (.intLit "1") ∧
    (∀ (s : String) (tok : Token) (t1 : Tokeniser) (n : Node) (st' : ParserSt),
      nextToken { source := s.data, charPos := 0 } = .ok (tok, t1) →
      expr (parseFuel s.data) { tokeniser := t1, currentToken := tok } = .ok (n, st') →
      parse s = .ok n) := by
  refine ⟨by rfl, ?_⟩
  intro s tok t1 n st' h1 h2
  simp only [parse]
  rw [h1]
  dsimp only
  rw [h2]

/-- Witness for C10 at the concrete run on `"1 2"`. -/
theorem c10_trailing_input_witness : parse "1 2" = .ok (.intLit "1") :=
  c10_trailing_input.2 "1 2" { kind := .IntLiteral, value := some "1", pos := 0 }
    { source := "1 2".data, charPos := 1 } (.intLit "1")
    { tokeniser := { source := "1 2".data, charPos := 3 },
      currentToken := { kind := .IntLiteral, value := some "2", pos := 2 } }
    (by rfl) (by rfl)

/-- C9: division by zero produces no parse or evaluation error: `"1 / 0"`
parses, evaluates, and yields positive infinity; in general dividing any
`f32` value by (finite) zero yields an infinity or NaN, never a failure. -/
theorem c9_div_by_zero :
    (parse "1 / 0" = .ok (.binOp (.intLit "1") (.intLit "0") .Div) ∧
      (Node.binOp (.intLit "1") (.intLit "0") .Div).evaluate = some .inf) ∧
    ∀ v : F32, F32.div v (.finite 0) = .inf ∨ F32.div v (.finite 0) = .negInf ∨
      F32.div v (.finite 0) = .nan := by
  refine ⟨⟨by rfl, by rfl⟩, ?_⟩
  intro v
  rcases v with m | _ | _ | _
  · by_cases h0 : m = 0
    · subst h0
      right; right
      simp [F32.div]
    · rcases lt_or_gt_of_ne h0 with hlt | hgt
      · right; left
        simp [F32.div, h0, not_lt.mpr (le_of_lt hlt)]
      · left
        simp [F32.div, h0, hgt]
  · left
    simp [F32.div]
  · right; left
    simp [F32.div]
  · right; right
    simp [F32.div]

/-- Witness for C9 at the `f32` value 1.0. -/
theorem c9_div_by_zero_witness :
    F32.div (.finite (2 ^ 149)) (.finite 0) = .inf ∨
    F32.div (.finite (2 ^ 149)) (.finite 0) = .negInf ∨
    F32.div (.finite (2 ^ 149)) (.finite 0) = .nan :=
  c9_div_by_zero.2 (.finite (2 ^ 149))

lemma evaluate_isSome : ∀ n : Node, goodNode n → (Node.evaluate n).isSome = true := by
  intro n
  induction n with
  | binOp l r op ihl ihr =>
    intro h
    rcases h with ⟨hl, hr⟩
    rcases Option.isSome_iff_exists.mp (ihl hl) with ⟨a, ha⟩
    rcases Option.isSome_iff_exists.mp (ihr hr) with ⟨b, hb⟩
    simp [Node.evaluate, ha, hb]
  | unaryOp r op ihr =>
    intro h
    rcases Option.isSome_iff_exists.mp (ihr h) with ⟨a, ha⟩
    simp [Node.evaluate, ha]
  | intLit v => intro h; simpa [Node.evaluate] using h
  | floatLit v => intro h; simpa [Node.evaluate] using h

lemma takeWhile_all {p : Char → Bool} :
    ∀ l : List Char, (∀ c ∈ l, p c = true) → l.takeWhile p = l ∧ l.dropWhile p = [] := by
  intro l
  induction l with
  | nil => intro _; exact ⟨rfl, rfl⟩
  | cons c cs ih =>
    intro h
    have hc : p c = true := h c (by simp)
    have := ih fun x hx => h x (by simp [hx])
    simp [List.takeWhile, List.dropWhile, hc, this.1, this.2]

lemma takeWhile_append_stop {p : Char → Bool} (b : List Char) (d : Char)
    (hd : p d = false) :
    ∀ a : List Char, (∀ c ∈ a, p c = true) →
      (a ++ d :: b).takeWhile p = a ∧ (a ++ d :: b).dropWhile p = d :: b := by
  intro a
  induction a with
  | nil => intro _; simp [List.takeWhile, List.dropWhile, hd]
  | cons c cs ih =>
    intro h
    have hc : p c = true := h c (by simp)
    have := ih fun x hx => h x (by simp [hx])
    simp [List.takeWhile, List.dropWhile, hc, this.1, this.2]

lemma decShape_digits (l : List Char) (h : ∀ c ∈ l, c.isDigit = true) (hne : l ≠ []) :
    decShape l = some (digitsVal l, 0, 0) := by
  have ht := takeWhile_all (p := Char.isDigit) l h
  simp [decShape, ht.1, ht.2, hne, List.length_eq_zero]

lemma decShape_float (a b : List Char) (ha : ∀ c ∈ a, c.isDigit = true) (hna : a ≠ [])
    (hb : ∀ c ∈ b, c.isDigit = true) (hnb : b ≠ []) :
    decShape (a ++ '.' :: b) = some (digitsVal a, digitsVal b, b.length) := by
  have ht := takeWhile_append_stop (p := Char.isDigit) b '.' (by decide) a ha
  have hlen : a.length ≠ 0 := by simpa [List.length_eq_zero] using hna
  simp only [decShape, ht.1, ht.2]
  rw [if_neg hlen]
  have hb' : b.all Char.isDigit = true := List.all_eq_true.mpr hb
  simp [hb', List.length_eq_zero, hnb]

lemma numberSeq_numeric_mem (src : List Char) :
    ∀ fuel pos, ∀ c ∈ (numberSeq src fuel pos).1, rustIsNumeric c = true ∧ c ∈ src := by
  intro fuel
  induction fuel with
  | zero => intro pos c hc; simp [numberSeq] at hc
  | succ f ih =>
    intro pos c hc
    simp only [numberSeq] at hc
    split at hc
    · rcases List.mem_cons.mp hc with h | h
      · rename_i hdig
        subst h
        refine ⟨hdig, ?_⟩
        by_cases hp : pos < src.length
        · have hc0 : charAt src pos = src[pos] := by
            simp [charAt, List.getD, List.getElem?_eq_getElem hp]
          rw [hc0]
          exact List.getElem_mem hp
        · exfalso
          rw [charAt_of_len_le src pos (by omega)] at hdig
          exact absurd hdig (by decide)
      · exact ih (pos + 1) c h
    · simp at hc

lemma numberSeq_cons (src : List Char) (fuel pos : ℕ)
    (h : rustIsNumeric (charAt src pos) = true) :
    (numberSeq src (fuel + 1) pos).1 =
      charAt src pos :: (numberSeq src fuel (pos + 1)).1 := by
  simp [numberSeq, h]

lemma data_append (x y : String) : (x ++ y).data = x.data ++ y.data := by
  cases x
  cases y
  rfl

lemma float_value_data (a b : List Char) :
    (String.mk a ++ "." ++ String.mk b).data = a ++ '.' :: b := by
  simp [data_append]

lemma parseF32_isSome_of_decShape (s : String)
    (h : (decShape s.data).isSome = true) : (parseF32 s).isSome = true := by
  rcases Option.isSome_iff_exists.mp h with ⟨⟨i, f, k⟩, hd⟩
  simp [parseF32, hd]

lemma singleKind_not_lit (c : Char) (k : TokenKind) (h : singleKind c = some k) :
    k ≠ .IntLiteral ∧ k ≠ .FloatLiteral := by
  unfold singleKind at h
  split at h <;> first
  | (cases h; exact ⟨by decide, by decide⟩)
  | exact absurd h (by simp)

lemma nextToken_good (t : Tokeniser) (tok : Token) (t' : Tokeniser)
    (hsrc : SafeSrc t.source)
    (h : nextToken t = .ok (tok, t')) : goodTok tok := by
  simp only [nextToken] at h
  split at h
  · rcases h with ⟨⟩
    intro hk
    rcases hk with hk | hk <;> simp at hk
  · split at h
    · -- a digit starts the token
      rename_i hdig
      split at h
      · -- a decimal point follows: float literal (or lexical error)
        split at h
        · exact absurd h (by simp)
        · rename_i hlen
          rcases h with ⟨⟩
          intro _
          refine ⟨_, rfl, ?_⟩
          have hns := numberSeq_cons t.source t.source.length
            (skipWs t.source (t.source.length + 1) t.charPos) hdig
          have hnsne : (numberSeq t.source (t.source.length + 1)
              (skipWs t.source (t.source.length + 1) t.charPos)).1 ≠ [] := by
            rw [hns]; exact List.cons_ne_nil _ _
          have hdsne : (numberSeq t.source (t.source.length + 1)
              ((numberSeq t.source (t.source.length + 1)
                (skipWs t.source (t.source.length + 1) t.charPos)).2 + 1)).1 ≠ [] := by
            simpa [List.length_eq_zero] using hlen
          have hdigits1 : ∀ c ∈ (numberSeq t.source (t.source.length + 1)
              (skipWs t.source (t.source.length + 1) t.charPos)).1, c.isDigit = true := by
            intro c hc
            rcases numberSeq_numeric_mem t.source (t.source.length + 1) _ c hc with ⟨hn, hm⟩
            exact hsrc c hm hn
          have hdigits2 : ∀ c ∈ (numberSeq t.source (t.source.length + 1)
              ((numberSeq t.source (t.source.length + 1)
                (skipWs t.source (t.source.length + 1) t.charPos)).2 + 1)).1,
              c.isDigit = true := by
            intro c hc
            rcases numberSeq_numeric_mem t.source (t.source.length + 1) _ c hc with ⟨hn, hm⟩
            exact hsrc c hm hn
          have hd := decShape_float _ _ hdigits1 hnsne hdigits2 hdsne
          refine parseF32_isSome_of_decShape _ ?_
          rw [float_value_data, hd]
          rfl
      · -- plain integer literal
        rcases h with ⟨⟩
        intro _
        refine ⟨_, rfl, ?_⟩
        have hns := numberSeq_cons t.source t.source.length
          (skipWs t.source (t.source.length + 1) t.charPos) hdig
        have hnsne : (numberSeq t.source (t.source.length + 1)
            (skipWs t.source (t.source.length + 1) t.charPos)).1 ≠ [] := by
          rw [hns]; exact List.cons_ne_nil _ _
        have hdigits1 : ∀ c ∈ (numberSeq t.source (t.source.length + 1)
            (skipWs t.source (t.source.length + 1) t.charPos)).1, c.isDigit = true := by
          intro c hc
          rcases numberSeq_numeric_mem t.source (t.source.length + 1) _ c hc with ⟨hn, hm⟩
          exact hsrc c hm hn
        have hd := decShape_digits _ hdigits1 hnsne
        refine parseF32_isSome_of_decShape _ ?_
        dsimp only
        rw [hd]
        rfl
    · -- single-character token or lexical error
      split at h
      · rename_i k hk
        rcases h with ⟨⟩
        intro habs
        rcases singleKind_not_lit _ _ hk with ⟨h1, h2⟩
        rcases habs with habs | habs <;> simp_all
      · exact absurd h (by simp)

lemma eat_goodSt (st : ParserSt) (k : TokenKind) (st' : ParserSt) (h : eat st k = .ok st')
    (hsrc : SafeSrc st.tokeniser.source) : goodSt st' := by
  simp only [eat] at h
  split at h
  · exact absurd h (by simp)
  · rcases hnt : nextToken st.tokeniser with e | ⟨tok, t1⟩ <;> rw [hnt] at h
    · exact absurd h (by simp)
    · dsimp only at h
      rcases h with ⟨⟩
      refine ⟨nextToken_good _ _ _ hsrc hnt, ?_⟩
      show SafeSrc t1.source
      rw [(nextToken_cursor _ _ _ hnt).1]
      exact hsrc

lemma parseGo_good :
    ∀ (fuel : ℕ) (sym : Rule) (st : ParserSt) (n : Node) (st' : ParserSt),
      parseGo fuel sym st = .ok (n, st') → goodSt st → goodRule sym →
      goodNode n ∧ goodSt st' := by
  intro fuel
  induction fuel with
  | zero =>
    intro sym st n st' h _ _
    exact absurd h (by simp [parseGo])
  | succ f ih =>
    intro sym st n st' h hst hsym
    rcases sym with _ | _ | acc | _ | acc
    · -- entity
      simp only [parseGo] at h
      split at h
      · -- IntLiteral
        rename_i hk
        split at h
        · rename_i v hv
          rcases he : eat st .IntLiteral with e | st1 <;> rw [he] at h
          · rw [exbind_err] at h
            exact absurd h (by simp)
          · rw [exbind_ok] at h
            rcases h with ⟨⟩
            rcases hst.1 (Or.inl hk) with ⟨v', hv', hsome⟩
            rw [hv] at hv'
            injection hv' with hv'
            subst hv'
            exact ⟨hsome, eat_goodSt _ _ _ he hst.2⟩
        · exact absurd h (by simp)
      · -- FloatLiteral
        rename_i hk
        split at h
        · rename_i v hv
          rcases he : eat st .FloatLiteral with e | st1 <;> rw [he] at h
          · rw [exbind_err] at h
            exact absurd h (by simp)
          · rw [exbind_ok] at h
            rcases h with ⟨⟩
            rcases hst.1 (Or.inr hk) with ⟨v', hv', hsome⟩
            rw [hv] at hv'
            injection hv' with hv'
            subst hv'
            exact ⟨hsome, eat_goodSt _ _ _ he hst.2⟩
        · exact absurd h (by simp)
      · -- unary Sub
        rcases he : eat st .Sub with e | st1 <;> rw [he] at h
        · rw [exbind_err] at h
          exact absurd h (by simp)
        · rw [exbind_ok] at h
          rcases hr : parseGo f .entity st1 with e | ⟨r, st2⟩ <;> rw [hr] at h
          · rw [exbind_err] at h
            exact absurd h (by simp)
          · rw [exbind_ok] at h
            rcases h with ⟨⟩
            rcases ih .entity st1 r st2 hr (eat_goodSt _ _ _ he hst.2) trivial with ⟨hgr, htok⟩
            exact ⟨hgr, htok⟩
      · -- parenthesised expr
        rcases he : eat st .LParen with e | st1 <;> rw [he] at h
        · rw [exbind_err] at h
          exact absurd h (by simp)
        · rw [exbind_ok] at h
          rcases hr : parseGo f .expr st1 with e | ⟨r, st2⟩ <;> rw [hr] at h
          · rw [exbind_err] at h
            exact absurd h (by simp)
          · rw [exbind_ok] at h
            rcases he2 : eat st2 .RParen with e | st3 <;> rw [he2] at h
            · rw [exbind_err] at h
              exact absurd h (by simp)
            · rw [exbind_ok] at h
              rcases h with ⟨⟩
              rcases ih .expr st1 r st2 hr (eat_goodSt _ _ _ he hst.2) trivial with ⟨hgr, hst2⟩
              exact ⟨hgr, eat_goodSt _ _ _ he2 hst2.2⟩
      · -- unexpected token
        exact absurd h (by simp)
    · -- multExpr
      simp only [parseGo] at h
      rcases hr : parseGo f .entity st with e | ⟨m, st1⟩ <;> rw [hr] at h
      · rw [exbind_err] at h
        exact absurd h (by simp)
      · rw [exbind_ok] at h
        rcases ih .entity st m st1 hr hst trivial with ⟨hgm, htok1⟩
        exact ih (.multLoop m) st1 n st' h htok1 hgm
    · -- multLoop acc
      simp only [parseGo] at h
      split at h
      · rcases he : eat st .Mult with e | st1 <;> rw [he] at h
        · rw [exbind_err] at h
          exact absurd h (by simp)
        · rw [exbind_ok] at h
          rcases hr : parseGo f .entity st1 with e | ⟨r, st2⟩ <;> rw [hr] at h
          · rw [exbind_err] at h
            exact absurd h (by simp)
          · rw [exbind_ok] at h
            rcases ih .entity st1 r st2 hr (eat_goodSt _ _ _ he hst.2) trivial with ⟨hgr, htok2⟩
            exact ih (.multLoop (.binOp acc r .Mult)) st2 n st' h htok2 ⟨hsym, hgr⟩
      · split at h
        · rcases he : eat st .Div with e | st1 <;> rw [he] at h
          · rw [exbind_err] at h
            exact absurd h (by simp)
          · rw [exbind_ok] at h
            rcases hr : parseGo f .entity st1 with e | ⟨r, st2⟩ <;> rw [hr] at h
            · rw [exbind_err] at h
              exact absurd h (by simp)
            · rw [exbind_ok] at h
              rcases ih .entity st1 r st2 hr (eat_goodSt _ _ _ he hst.2) trivial with ⟨hgr, htok2⟩
              exact ih (.multLoop (.binOp acc r .Div)) st2 n st' h htok2 ⟨hsym, hgr⟩
        · rcases h with ⟨⟩
          exact ⟨hsym, hst⟩
    · -- expr
      simp only [parseGo] at h
      rcases hr : parseGo f .multExpr st with e | ⟨m, st1⟩ <;> rw [hr] at h
      · rw [exbind_err] at h
        exact absurd h (by simp)
      · rw [exbind_ok] at h
        rcases ih .multExpr st m st1 hr hst trivial with ⟨hgm, htok1⟩
        exact ih (.exprLoop m) st1 n st' h htok1 hgm
    · -- exprLoop acc
      simp only [parseGo] at h
      split at h
      · rcases he : eat st .Add with e | st1 <;> rw [he] at h
        · rw [exbind_err] at h
          exact absurd h (by simp)
        · rw [exbind_ok] at h
          rcases hr : parseGo f .multExpr st1 with e | ⟨r, st2⟩ <;> rw [hr] at h
          · rw [exbind_err] at h
            exact absurd h (by simp)
          · rw [exbind_ok] at h
            rcases ih .multExpr st1 r st2 hr (eat_goodSt _ _ _ he hst.2) trivial with ⟨hgr, htok2⟩
            exact ih (.exprLoop (.binOp acc r .Add)) st2 n st' h htok2 ⟨hsym, hgr⟩
      · split at h
        · rcases he : eat st .Sub with e | st1 <;> rw [he] at h
          · rw [exbind_err] at h
            exact absurd h (by simp)
          · rw [exbind_ok] at h
            rcases hr : parseGo f .multExpr st1 with e | ⟨r, st2⟩ <;> rw [hr] at h
            · rw [exbind_err] at h
              exact absurd h (by simp)
            · rw [exbind_ok] at h
              rcases ih .multExpr st1 r st2 hr (eat_goodSt _ _ _ he hst.2) trivial with ⟨hgr, htok2⟩
              exact ih (.exprLoop (.binOp acc r .Sub)) st2 n st' h htok2 ⟨hsym, hgr⟩
        · rcases h with ⟨⟩
          exact ⟨hsym, hst⟩

lemma parse_good (s : String) (n : Node) (hsrc : SafeSrc s.data)
    (h : parse s = .ok n) : goodNode n := by
  simp only [parse] at h
  rcases hnt : nextToken { source := s.data, charPos := 0 } with e | ⟨tok, t1⟩ <;>
    rw [hnt] at h
  · exact absurd h (by simp)
  · dsimp only at h
    rcases hex : expr (parseFuel s.data) { tokeniser := t1, currentToken := tok } with
      e | ⟨m, st'⟩ <;> rw [hex] at h
    · exact absurd h (by simp)
    · dsimp only at h
      rcases h with ⟨⟩
      have hpres : t1.source = s.data := (nextToken_cursor _ _ _ hnt).1
      exact (parseGo_good _ .expr _ _ _ hex
        ⟨nextToken_good _ _ _ hsrc hnt, by rw [hpres]; exact hsrc⟩ trivial).1

/-- C7 is false on the code: `char::is_numeric` also accepts Unicode
numerics, so the input `"٣"` (U+0663, ARABIC-INDIC DIGIT THREE) tokenises
into an `IntLiteral` whose stored text is not a well-formed decimal number;
the parse succeeds, but evaluating the literal fails `parse::<f32>` and
hits the panicking `unwrap` branch (modelled as `none`). -/
theorem c7_counterexample :
    parse "\u0663" = .ok (.intLit "\u0663") ∧
    (Node.intLit "\u0663").evaluate = none :=
  ⟨by rfl, by rfl⟩

/-- C7 amended: for every input in which each character the tokeniser scans
as numeric is an ASCII decimal digit (in particular every ASCII-only
input), a successful `parse` returns a tree whose literal leaves all parse
as numbers, and evaluation always produces a value — the panicking `unwrap`
branch is unreachable.  Without that restriction the property fails
(`"٣"` parses but its evaluation panics). -/
theorem c7_amended :
    ∀ (s : String) (n : Node),
      (∀ c ∈ s.data, rustIsNumeric c = true → c.isDigit = true) →
      parse s = .ok n → goodNode n ∧ (Node.evaluate n).isSome = true := by
  intro s n hsrc h
  have hg := parse_good s n hsrc h
  exact ⟨hg, evaluate_isSome n hg⟩

/-- Witness for C7 (amended) at the parse of `"3.14"`. -/
theorem c7_amended_witness :
    goodNode (.floatLit "3.14") ∧ (Node.evaluate (.floatLit "3.14")).isSome = true :=
  c7_amended "3.14" (.floatLit "3.14") (by decide) (by rfl)

lemma rneNat_of_dvd (p q : ℕ) (hq : 0 < q) (h : q ∣ p) : rneNat p q = p / q := by
  obtain ⟨c, rfl⟩ := h
  simp [rneNat, Nat.mul_mod_right, hq]

lemma expSearch_eq (B N : ℕ) :
    ∀ (fuel t tstar : ℕ), t ≤ tstar → tstar ≤ t + fuel →
      B * 2 ^ tstar ≤ N → N < B * 2 ^ (tstar + 1) →
      expSearch B N fuel t = tstar := by
  intro fuel
  induction fuel with
  | zero =>
    intro t ts h1 h2 h3 h4
    have : t = ts := by omega
    subst this
    rfl
  | succ f ihf =>
    intro t ts h1 h2 h3 h4
    simp only [expSearch]
    by_cases hc : B * 2 ^ (t + 1) ≤ N
    · rw [if_pos hc]
      have ht : t < ts := by
        rcases eq_or_lt_of_le h1 with he | hlt
        · subst he
          exact absurd hc (not_le.mpr h4)
        · exact hlt
      exact ihf (t + 1) ts ht (by omega) h3 h4
    · rw [if_neg hc]
      rcases eq_or_lt_of_le h1 with he | hlt
      · exact he
      · exfalso
        exact hc (le_trans
          (Nat.mul_le_mul_left B (Nat.pow_le_pow_right (by norm_num) (by omega))) h3)

lemma roundPosPQ_int (k : ℕ) (h1 : 0 < k) (h2 : k ≤ 2 ^ 24) :
    roundPosPQ k 1 = some (k * 2 ^ 149) := by
  have he1 : 2 ^ Nat.log 2 k ≤ k := Nat.pow_log_le_self 2 (by omega)
  have he2 : k < 2 ^ (Nat.log 2 k + 1) := Nat.lt_pow_succ_log_self (by norm_num) k
  set e := Nat.log 2 k with hedef
  have hele : e ≤ 24 := by
    by_contra hc
    push_neg at hc
    have h25 : (2 : ℕ) ^ 25 ≤ 2 ^ e := Nat.pow_le_pow_right (by norm_num) (by omega)
    have := le_trans h25 (le_trans he1 h2)
    norm_num at this
  have ht : expSearch 1 (k * 2 ^ 126) expFuel 0 = e + 126 := by
    apply expSearch_eq
    · omega
    · show e + 126 ≤ 0 + expFuel
      have hf : expFuel = 600 := rfl
      omega
    · rw [one_mul, pow_add]
      exact Nat.mul_le_mul_right _ he1
    · rw [one_mul]
      calc k * 2 ^ 126 < 2 ^ (e + 1) * 2 ^ 126 :=
            (Nat.mul_lt_mul_right (by positivity)).mpr he2
        _ = 2 ^ (e + 126 + 1) := by
            rw [← pow_add]
  have hdvd : (1 * 2 ^ (e + 126)) ∣ k * 2 ^ 149 := by
    rw [one_mul]
    rcases Nat.lt_or_ge e 24 with hlt | hge
    · exact (pow_dvd_pow 2 (by omega)).mul_left k
    · have he24 : e = 24 := by omega
      have hk : k = 2 ^ 24 := le_antisymm h2 (by rw [← he24]; exact he1)
      exact ⟨2 ^ 23, by rw [hk, he24]; ring⟩
  have hle : k * 2 ^ 149 ≤ maxM := by
    calc k * 2 ^ 149 ≤ 2 ^ 24 * 2 ^ 149 := Nat.mul_le_mul_right _ h2
      _ ≤ maxM := by norm_num [maxM]
  simp only [roundPosPQ]
  rw [ht, rneNat_of_dvd _ _ (by positivity) hdvd]
  have hm : k * 2 ^ 149 / (1 * 2 ^ (e + 126)) * 2 ^ (e + 126) = k * 2 ^ 149 := by
    rw [one_mul]
    rw [one_mul] at hdvd
    exact Nat.div_mul_cancel hdvd
  rw [hm, if_neg (not_lt.mpr hle)]

lemma roundPQ_natCast (k : ℕ) (h2 : k ≤ 2 ^ 24) :
    roundPQ (k : ℤ) 1 = .finite ((k : ℤ) * 2 ^ 149) := by
  rcases Nat.eq_zero_or_pos k with h0 | h0
  · subst h0
    simp [roundPQ]
  · have hne : (k : ℤ) ≠ 0 := Int.natCast_ne_zero.mpr (by omega)
    have hpos : (0 : ℤ) < k := by exact_mod_cast h0
    simp only [roundPQ, if_neg hne, if_pos hpos]
    rw [Int.natAbs_ofNat, roundPosPQ_int k h0 h2]
    norm_cast

lemma digit_ne_null (c : Char) (h : c.isDigit = true) : c ≠ '\x00' := by
  intro he
  rw [he] at h
  exact absurd h (by decide)

lemma isDigit_numeric (c : Char) (h : c.isDigit = true) : rustIsNumeric c = true := by
  simp [rustIsNumeric, h]

lemma digit_not_ws (c : Char) (h : c.isDigit = true) : ¬ rustIsWhitespace c = true := by
  intro hw
  simp only [rustIsWhitespace, Bool.or_eq_true, decide_eq_true_eq] at hw
  rcases hw with ((((((((((((((((((((((((h1|h1)|h1)|h1)|h1)|h1)|h1)|h1)|h1)|h1)|h1)|h1)|h1)|h1)|h1)|h1)|h1)|h1)|h1)|h1)|h1)|h1)|h1)|h1)|h1) <;> subst h1 <;> exact absurd h (by decide)

lemma numberSeq_all (src : List Char) (hall : ∀ c ∈ src, c.isDigit = true) :
    ∀ fuel pos, src.length ≤ pos + fuel → pos ≤ src.length →
      numberSeq src fuel pos = (src.drop pos, src.length) := by
  intro fuel
  induction fuel with
  | zero =>
    intro pos h1 h2
    have hp : pos = src.length := by omega
    subst hp
    simp [numberSeq, List.drop_length]
  | succ f ihf =>
    intro pos h1 h2
    rcases eq_or_lt_of_le h2 with he | hlt
    · simp only [numberSeq]
      rw [charAt_of_len_le src pos (by omega)]
      rw [if_neg (show ¬ (rustIsNumeric '\x00' = true) from by decide)]
      rw [he, List.drop_length]
    · have hc : charAt src pos = src[pos] := by
        simp [charAt, List.getD, List.getElem?_eq_getElem hlt]
      have hdig : rustIsNumeric (charAt src pos) = true := by
        rw [hc]
        exact isDigit_numeric _ (hall _ (List.getElem_mem hlt))
      simp only [numberSeq, hdig, if_pos]
      rw [ihf (pos + 1) (by omega) (by omega)]
      rw [hc]
      rw [← List.drop_eq_getElem_cons hlt]

lemma skipWs_stop (src : List Char) (fuel pos : ℕ)
    (h : ¬ rustIsWhitespace (charAt src pos) = true) :
    skipWs src (fuel + 1) pos = pos := by
  simp [skipWs, h]

lemma nextToken_digits (l : List Char) (hall : ∀ c ∈ l, c.isDigit = true) (hne : l ≠ []) :
    nextToken { source := l, charPos := 0 } =
      .ok ({ kind := .IntLiteral, value := some (String.mk l), pos := 0 },
           { source := l, charPos := l.length }) := by
  have h0 : 0 < l.length := List.length_pos.mpr hne
  have hc0 : charAt l 0 = l[0] := by
    simp [charAt, List.getD, List.getElem?_eq_getElem h0]
  have hdig : (charAt l 0).isDigit = true := by
    rw [hc0]
    exact hall _ (List.getElem_mem h0)
  have hws : skipWs l (l.length + 1) 0 = 0 := skipWs_stop l l.length 0 (digit_not_ws _ hdig)
  have hns : numberSeq l (l.length + 1) 0 = (l.drop 0, l.length) :=
    numberSeq_all l hall (l.length + 1) 0 (by omega) (by omega)
  simp only [nextToken, hws]
  rw [if_neg (digit_ne_null _ hdig), if_pos (isDigit_numeric _ hdig), hns]
  dsimp only
  rw [charAt_of_len_le l l.length le_rfl]
  rw [if_neg (by decide)]
  rw [List.drop_zero]

lemma nextToken_eof (l : List Char) :
    nextToken { source := l, charPos := l.length } =
      .ok ({ kind := .EOF, value := none, pos := l.length },
           { source := l, charPos := l.length }) := by
  have hnull : charAt l l.length = '\x00' := charAt_of_len_le l l.length le_rfl
  have hws : skipWs l (l.length + 1) l.length = l.length :=
    skipWs_stop l l.length l.length (by rw [hnull]; decide)
  simp only [nextToken, hws]
  rw [if_pos hnull]

lemma string_mk_data (s : String) : String.mk s.data = s := by
  cases s
  rfl

lemma eat_ok_of (st : ParserSt) (k : TokenKind) (tok : Token) (t2 : Tokeniser)
    (hk : st.currentToken.kind = k)
    (hnt : nextToken st.tokeniser = .ok (tok, t2)) :
    eat st k = .ok { tokeniser := t2, currentToken := tok } := by
  simp only [eat, hk, hnt]
  rw [if_neg (by simp)]

lemma multLoop_stop (f : ℕ) (acc : Node) (st : ParserSt)
    (h1 : ¬ st.currentToken.kind = .Mult) (h2 : ¬ st.currentToken.kind = .Div) :
    parseGo (f + 1) (.multLoop acc) st = .ok (acc, st) := by
  simp only [parseGo]
  rw [if_neg h1, if_neg h2]

lemma exprLoop_stop (f : ℕ) (acc : Node) (st : ParserSt)
    (h1 : ¬ st.currentToken.kind = .Add) (h2 : ¬ st.currentToken.kind = .Sub) :
    parseGo (f + 1) (.exprLoop acc) st = .ok (acc, st) := by
  simp only [parseGo]
  rw [if_neg h1, if_neg h2]

lemma entity_lit (f : ℕ) (st : ParserSt) (v : String) (tok : Token) (t2 : Tokeniser)
    (hk : st.currentToken.kind = .IntLiteral)
    (hv : st.currentToken.value = some v)
    (hnt : nextToken st.tokeniser = .ok (tok, t2)) :
    parseGo (f + 1) .entity st =
      .ok (.intLit v, { tokeniser := t2, currentToken := tok }) := by
  simp only [parseGo]
  rw [hk]
  dsimp only
  rw [hv]
  dsimp only
  rw [eat_ok_of st .IntLiteral tok t2 hk hnt, exbind_ok]

lemma expr_single_lit (f : ℕ) (st : ParserSt) (v : String) (tok : Token) (t2 : Tokeniser)
    (hk : st.currentToken.kind = .IntLiteral)
    (hv : st.currentToken.value = some v)
    (hnt : nextToken st.tokeniser = .ok (tok, t2))
    (htok : tok.kind = .EOF) :
    parseGo (f + 1 + 1 + 1 + 1) .expr st =
      .ok (.intLit v, { tokeniser := t2, currentToken := tok }) := by
  have hent := entity_lit (f + 1) st v tok t2 hk hv hnt
  have hml : parseGo (f + 1 + 1) (.multLoop (.intLit v))
      { tokeniser := t2, currentToken := tok } =
      .ok (.intLit v, { tokeniser := t2, currentToken := tok }) :=
    multLoop_stop (f + 1) _ _ (by simp [htok]) (by simp [htok])
  have hme : parseGo (f + 1 + 1 + 1) .multExpr st =
      .ok (.intLit v, { tokeniser := t2, currentToken := tok }) := by
    rw [parseGo]
    rw [hent, exbind_ok, hml]
  have hel : parseGo (f + 1 + 1 + 1) (.exprLoop (.intLit v))
      { tokeniser := t2, currentToken := tok } =
      .ok (.intLit v, { tokeniser := t2, currentToken := tok }) :=
    exprLoop_stop (f + 1 + 1) _ _ (by simp [htok]) (by simp [htok])
  rw [parseGo]
  rw [hme, exbind_ok, hel]

lemma parse_digits (s : String) (hall : ∀ c ∈ s.data, c.isDigit = true)
    (hne : s.data ≠ []) : parse s = .ok (.intLit s) := by
  simp only [parse]
  rw [nextToken_digits s.data hall hne]
  dsimp only
  have hfuel : parseFuel s.data = 4 * s.data.length + 4 + 1 + 1 + 1 + 1 := by
    simp only [parseFuel]
  show (match expr (parseFuel s.data)
      { tokeniser := { source := s.data, charPos := s.data.length },
        currentToken :=
          { kind := .IntLiteral, value := some (String.mk s.data), pos := 0 } } with
    | .error e => Except.error e
    | .ok (n, _) => Except.ok n) = .ok (.intLit s)
  rw [show expr = fun f => parseGo f .expr from rfl]
  dsimp only
  rw [hfuel]
  rw [expr_single_lit (4 * s.data.length + 4) _ s _ _ rfl
    (by dsimp only) (nextToken_eof s.data) rfl]

lemma evaluate_digits (s : String) (hall : ∀ c ∈ s.data, c.isDigit = true)
    (hne : s.data ≠ []) (hbound : digitsVal s.data ≤ 2 ^ 24) :
    (Node.intLit s).evaluate = some (.finite ((digitsVal s.data : ℤ) * 2 ^ 149)) := by
  simp only [Node.evaluate, parseF32]
  rw [decShape_digits s.data hall hne]
  dsimp only
  rw [show ((digitsVal s.data : ℤ) * 10 ^ 0 + (0 : ℕ)) = (digitsVal s.data : ℤ) by push_cast; ring]
  rw [show (10 : ℕ) ^ 0 = 1 from rfl]
  rw [roundPQ_natCast _ hbound]

/-- C4 is false on the code for long digit runs: `"16777217"` consists only
of decimal digits and parses to a single `IntLiteral` leaf, but `f32` has a
24-bit significand, so evaluation rounds to 16777216.0 — not the written
integer value 16777217. -/
theorem c4_counterexample :
    parse "16777217" = .ok (.intLit "16777217") ∧
    (Node.intLit "16777217").evaluate = some (.finite (16777216 * 2 ^ 149)) ∧
    evalVal "16777217" = some 16777216 ∧ (16777216 : ℚ) ≠ 16777217 := by
  refine ⟨by rfl, by rfl, ?_, by norm_num⟩
  simpa using evalVal_of_run "16777217" 16777216 (by rfl)

/-- C4 amended: every non-empty all-digit input parses to the single
`IntLiteral` leaf holding the input text, and its evaluation equals the
written integer value exactly whenever that value is at most 2^24 (the
largest length-independent exactness bound binary32 admits; e.g. `"42"`
evaluates to 42.0, while larger values such as `"16777217"` are rounded). -/
theorem c4_amended :
    ∀ s : String, s.data ≠ [] → (∀ c ∈ s.data, c.isDigit = true) →
      digitsVal s.data ≤ 2 ^ 24 →
      parse s = .ok (.intLit s) ∧ evalVal s = some (digitsVal s.data : ℚ) := by
  intro s hne hall hb
  have hp := parse_digits s hall hne
  have hev := evaluate_digits s hall hne hb
  refine ⟨hp, ?_⟩
  simp only [evalVal]
  rw [hp]
  dsimp only
  rw [hev]
  dsimp only
  have hv := val_intCast (digitsVal s.data : ℤ)
  rw [hv]
  norm_cast

/-- Witness for C4 (amended) at the input `"42"`. -/
theorem c4_amended_witness :
    parse "42" = .ok (.intLit "42") ∧ evalVal "42" = some (digitsVal "42".data : ℚ) :=
  c4_amended "42" (by decide) (by decide) (by decide)
